import Mathlib

/-!
Verification of the Beatrove vinyl-catalog metadata pipeline.

This file shallowly embeds the core metadata-resolution logic of the server
(`src/server/app.py`, `src/server/metadata/*.py`, `src/server/ocr/*.py`,
`src/server/database.py`) in Lean and proves the spec claims about it.

Modelling conventions:
- Python `str` values are Lean `String`s; text operations (`strip`, `lower`,
  `upper`, substring `in`) are embedded over the ASCII reading of Python
  semantics.
- Python dicts of metadata are total functions `Field → String`, with a
  missing key reading as `""` (this matches `dict.get(field)` followed by the
  code's truthiness tests, under which `None` and `""` behave alike).
- OCR payload dicts additionally carry `raw_text`.
-/

namespace Beatrove

/-- ASCII whitespace set of  Python str.strip / regex \s (ASCII reading). -/
def isWsChar (c : Char) : Bool :=
  c = ' ' || c = '\t' || c = '\n' || c = '\r' || c = '\x0b' || c = '\x0c'

/-- Lowercase an ASCII letter, as Python str.lower does on ASCII text. -/
def lowerChar (c : Char) : Char :=
  if 'A' ≤ c ∧ c ≤ 'Z' then Char.ofNat (c.toNat + 32) else c

/-- Uppercase an ASCII letter, as Python str.upper does on ASCII text. -/
def upperChar (c : Char) : Char :=
  if 'a' ≤ c ∧ c ≤ 'z' then Char.ofNat (c.toNat - 32) else c

/-- Strip leading and trailing whitespace from a character list. -/
def stripList (cs : List Char) : List Char :=
  ((cs.dropWhile isWsChar).reverse.dropWhile isWsChar).reverse

/-- Python str.strip(): trim whitespace from both ends. -/
def pyStrip (s : String) : String := ⟨stripList s.data⟩

/-- Python str.lower() (ASCII reading). -/
def pyLower (s : String) : String := ⟨s.data.map lowerChar⟩

/-- Python `needle in hay` substring test, on character lists. -/
def listContains (hay needle : List Char) : Bool :=
  if needle.isPrefixOf hay then true
  else
    match hay with
    | [] => false
    | _ :: t => listContains t needle

/-- Python `needle in hay` substring test on strings. -/
def containsStr (hay needle : String) : Bool := listContains hay.data needle.data

/-- `_clean_text` from app.py: `None` maps to `""`, strings are stripped.
With the missing-key-reads-as-empty convention, cleaning an optional value
is stripping the total-function value. -/
def clean_text (s : String) : String := pyStrip s

/-- The closed 11-field set of the data model (app.py `fields` lists). -/
inductive Field where
  | artist
  | composer
  | record_name
  | catalog_number
  | composer_code
  | label
  | year
  | location
  | notes
  | genre
  | key_signature
deriving DecidableEq, Repr

/-- The 11 fields in the fixed order used by app.py merge_metadata. -/
def allFields : List Field :=
  [.artist, .composer, .record_name, .catalog_number, .composer_code,
   .label, .year, .location, .notes, .genre, .key_signature]

/-- A normalized OCR payload: the typed fields (missing keys read as `""`)
plus the catch-all `raw_text`. -/
structure Payload where
  get : Field → String
  raw_text : String

/-- `_first_non_empty` from app.py: first payload whose cleaned value for
the field is non-empty, in submission order. -/
def first_non_empty (payloads : List Payload) (f : Field) : String :=
  match payloads with
  | [] => ""
  | p :: rest =>
      let value := clean_text (p.get f)
      if value ≠ "" then value else first_non_empty rest f

/-- The per-field precedence loop of `merge_metadata` in app.py
(lines 313-327; the subsequent `metadata_enricher.enrich` call is the
separate enrichment stage, modelled by `llm_apply` below). -/
def merge_metadata_fields (manual : Field → String) (ocr : List Payload)
    (existing : Option (Field → String)) : Field → String := fun f =>
  if manual f ≠ "" then manual f
  else
    let from_ocr := first_non_empty ocr f
    if from_ocr ≠ "" then from_ocr
    else
      match existing with
      | some ex =>
          let existing_val := clean_text (ex f)
          if existing_val ≠ "" then existing_val else ""
      | none => ""

/-- The merge precedence as the spec words it (spec §4.3 / claim C1): the
manual value when non-empty after trimming, else the first non-empty OCR
value in submission order, else the trimmed existing value, else `""`. -/
def merge_field_spec (manual : Field → String) (ocr : List Payload)
    (existing : Option (Field → String)) (f : Field) : String :=
  if pyStrip (manual f) ≠ "" then manual f
  else
    match (ocr.map fun p => clean_text (p.get f)).filter (fun v => v ≠ "") with
    | v :: _ => v
    | [] =>
        match existing with
        | some ex => pyStrip (ex f)
        | none => ""

theorem pyStrip_empty : pyStrip "" = "" := rfl

theorem first_non_empty_eq (payloads : List Payload) (f : Field) :
    first_non_empty payloads f =
      ((payloads.map fun p => clean_text (p.get f)).filter (fun v => v ≠ "")).headD "" := by
  induction payloads with
  | nil => rfl
  | cons p rest ih =>
      by_cases h : clean_text (p.get f) = ""
      · simp [first_non_empty, h, ih]
      · simp [first_non_empty, h]

/-- C1: For every field of the 11-field set, the merge resolver picks, in
this exact precedence: the manual value if non-empty after trimming, else
the first non-empty value for that field across the OCR payload list in
submission order, else (when an existing stored record is supplied) that
record's trimmed value, else the empty string; a supplied non-empty manual
value is never overridden by any OCR or existing value in the merge step.
Stated under the pipeline invariant that manual values have been cleaned
with `_clean_text` (both call sites in app.py do so). -/
theorem merge_metadata_precedence (manual : Field → String) (ocr : List Payload)
    (existing : Option (Field → String)) (f : Field)
    (htrim : pyStrip (manual f) = manual f) :
    merge_metadata_fields manual ocr existing f = merge_field_spec manual ocr existing f
      ∧ (manual f ≠ "" → merge_metadata_fields manual ocr existing f = manual f) := by
  constructor
  · by_cases hm : manual f = ""
    · simp only [merge_metadata_fields, merge_field_spec, hm, htrim]
      simp only [ne_eq, not_true_eq_false, if_false, first_non_empty_eq]
      cases hfilter : (ocr.map fun p => clean_text (p.get f)).filter (fun v => v ≠ "") with
      | nil =>
          simp only [List.headD_nil, ne_eq, not_true_eq_false, if_false, pyStrip_empty]
          cases existing with
          | none => simp
          | some ex =>
              by_cases he : pyStrip (ex f) = ""
              · simp [he, clean_text]
              · simp [he, clean_text]
      | cons v t =>
          have hv : v ≠ "" := by
            have : v ∈ (ocr.map fun p => clean_text (p.get f)).filter (fun v => v ≠ "") := by
              rw [hfilter]; exact List.mem_cons_self v t
            have := List.of_mem_filter this
            simpa using this
          simp [hv, pyStrip_empty]
    · simp [merge_metadata_fields, merge_field_spec, hm, htrim]
  · intro hm
    simp [merge_metadata_fields, hm]

/-- Witness for C1 at a concrete instance: manual artist "A" beats OCR
artist "B"; empty manual record_name falls back to OCR "B". -/
theorem merge_metadata_precedence_witness :
    (merge_metadata_fields
        (fun f => match f with | .artist => "A" | _ => "")
        [⟨fun f => match f with | .artist => "B" | .record_name => "B" | _ => "", ""⟩]
        none .artist = "A")
    ∧ (merge_metadata_fields
        (fun f => match f with | .artist => "A" | _ => "")
        [⟨fun f => match f with | .artist => "B" | .record_name => "B" | _ => "", ""⟩]
        none .record_name = "B") := by
  constructor
  · exact (merge_metadata_precedence
      (fun f => match f with | .artist => "A" | _ => "")
      [⟨fun f => match f with | .artist => "B" | .record_name => "B" | _ => "", ""⟩]
      none .artist (by decide)).2 (by decide)
  · have h := (merge_metadata_precedence
      (fun f => match f with | .artist => "A" | _ => "")
      [⟨fun f => match f with | .artist => "B" | .record_name => "B" | _ => "", ""⟩]
      none .record_name (by decide)).1
    rw [h]
    decide

/-- The `prioritized_fields` list of `LLMEnrichmentStrategy.apply`
(src/server/metadata/strategies.py lines 28-38). -/
def prioritized_fields : List Field :=
  [.artist, .composer, .catalog_number, .label, .year, .location,
   .genre, .key_signature, .composer_code]

/-- One write step of `LLMEnrichmentStrategy.apply`: the candidate is written
only when it is truthy and the draft value is falsy. -/
def llm_write_step (r : Field → String) (m : Field → String) (f : Field) : Field → String :=
  if r f ≠ "" ∧ m f = "" then Function.update m f (r f) else m

/-- `LLMEnrichmentStrategy.apply` (strategies.py lines 23-48): with a parsed
result, fill the nine prioritized fields only when empty, then always
overwrite `record_name` with a non-empty candidate, then fill `notes` only
when empty.  `none` models a falsy result dict (strategy is a no-op). -/
def llm_apply (result : Option (Field → String)) (metadata : Field → String) :
    Field → String :=
  match result with
  | none => metadata
  | some r =>
      let m1 := prioritized_fields.foldl (llm_write_step r) metadata
      let m2 := if r .record_name ≠ "" then
          Function.update m1 .record_name (r .record_name) else m1
      if r .notes ≠ "" ∧ m2 .notes = "" then
        Function.update m2 .notes (r .notes) else m2

theorem llm_foldl_not_mem (r : Field → String) (L : List Field) (m : Field → String)
    (f : Field) (hf : f ∉ L) : (L.foldl (llm_write_step r) m) f = m f := by
  induction L generalizing m with
  | nil => rfl
  | cons g t ih =>
      have hfg : f ≠ g := fun h => hf (h ▸ List.mem_cons_self g t)
      have hft : f ∉ t := fun h => hf (List.mem_cons_of_mem g h)
      simp only [List.foldl_cons]
      rw [ih _ hft]
      unfold llm_write_step
      split
      · exact Function.update_noteq hfg _ m
      · rfl

theorem llm_foldl_mem (r : Field → String) (L : List Field) (m : Field → String)
    (f : Field) (hnd : L.Nodup) (hf : f ∈ L) :
    (L.foldl (llm_write_step r) m) f = if r f ≠ "" ∧ m f = "" then r f else m f := by
  induction L generalizing m with
  | nil => cases hf
  | cons g t ih =>
      rcases List.nodup_cons.mp hnd with ⟨hgt, hndt⟩
      simp only [List.foldl_cons]
      by_cases hfg : f = g
      · subst hfg
        rw [llm_foldl_not_mem r t _ f hgt]
        unfold llm_write_step
        split
        · rw [Function.update_same]
        · rfl
      · have hft : f ∈ t := by
          rcases List.mem_cons.mp hf with h | h
          · exact absurd h hfg
          · exact h
        rw [ih _ hndt hft]
        have hstep : (llm_write_step r m g) f = m f := by
          unfold llm_write_step
          split
          · exact Function.update_noteq hfg _ m
          · rfl
        rw [hstep]

theorem mem_prioritized_ne (f : Field) (hf : f ∈ prioritized_fields) :
    f ≠ .notes ∧ f ≠ .record_name := by
  fin_cases hf <;> exact ⟨by decide, by decide⟩

theorem llm_apply_prioritized (r m : Field → String) (f : Field)
    (hf : f ∈ prioritized_fields) :
    llm_apply (some r) m f = if r f ≠ "" ∧ m f = "" then r f else m f := by
  obtain ⟨hfn, hfr⟩ := mem_prioritized_ne f hf
  have hnd : prioritized_fields.Nodup := by decide
  have h1 : (prioritized_fields.foldl (llm_write_step r) m) f =
      if r f ≠ "" ∧ m f = "" then r f else m f := llm_foldl_mem r _ m f hnd hf
  simp only [llm_apply]
  split
  · split
    · rw [Function.update_noteq hfn, Function.update_noteq hfr, h1]
    · rw [Function.update_noteq hfr, h1]
  · split
    · rw [Function.update_noteq hfn, h1]
    · exact h1

theorem llm_apply_notes (r m : Field → String) :
    llm_apply (some r) m .notes =
      if r .notes ≠ "" ∧ m .notes = "" then r .notes else m .notes := by
  have hnm : Field.notes ∉ prioritized_fields := by decide
  have hrn : Field.notes ≠ Field.record_name := by decide
  have h1 : (prioritized_fields.foldl (llm_write_step r) m) .notes = m .notes :=
    llm_foldl_not_mem r _ m _ hnm
  simp only [llm_apply]
  have hm2 : (if r Field.record_name ≠ "" then
      Function.update (prioritized_fields.foldl (llm_write_step r) m)
        Field.record_name (r Field.record_name)
      else prioritized_fields.foldl (llm_write_step r) m) Field.notes = m Field.notes := by
    split
    · rw [Function.update_noteq hrn]; exact h1
    · exact h1
  rw [hm2]
  by_cases hc : r Field.notes ≠ "" ∧ m Field.notes = ""
  · rw [if_pos hc, if_pos hc, Function.update_same]
  · rw [if_neg hc, if_neg hc]
    exact hm2

theorem llm_apply_record_name (r m : Field → String) :
    llm_apply (some r) m .record_name =
      if r .record_name ≠ "" then r .record_name else m .record_name := by
  have hnm : Field.record_name ∉ prioritized_fields := by decide
  have hrn : Field.record_name ≠ Field.notes := by decide
  have h1 : (prioritized_fields.foldl (llm_write_step r) m) .record_name = m .record_name :=
    llm_foldl_not_mem r _ m _ hnm
  simp only [llm_apply]
  have h2 : ∀ g : Field → String,
      (if r Field.notes ≠ "" ∧ g Field.notes = "" then
        Function.update g Field.notes (r Field.notes) else g) Field.record_name =
      g Field.record_name := by
    intro g
    split
    · rw [Function.update_noteq hrn]
    · rfl
  rw [h2]
  by_cases hc : r Field.record_name ≠ ""
  · rw [if_pos hc, if_pos hc, Function.update_same]
  · rw [if_neg hc, if_neg hc]
    exact h1

/-- C2: when the LLM strategy obtains a parsed result, each of the nine
prioritized fields and `notes` is written only if currently empty in the
draft (and is written when empty and the candidate is non-empty), whereas
`record_name` is overwritten whenever the result has a non-empty
record_name, even over a non-empty draft value. -/
theorem llm_apply_fill_policy (r m : Field → String) (f : Field) :
    ((f ∈ prioritized_fields ∨ f = .notes) → m f ≠ "" →
        llm_apply (some r) m f = m f)
    ∧ ((f ∈ prioritized_fields ∨ f = .notes) → m f = "" → r f ≠ "" →
        llm_apply (some r) m f = r f)
    ∧ (r .record_name ≠ "" → llm_apply (some r) m .record_name = r .record_name) := by
  refine ⟨?_, ?_, ?_⟩
  · intro hf hne
    rcases hf with hf | hf
    · rw [llm_apply_prioritized r m f hf, if_neg]
      intro h; exact hne h.2
    · subst hf
      rw [llm_apply_notes, if_neg]
      intro h; exact hne h.2
  · intro hf hme hre
    rcases hf with hf | hf
    · rw [llm_apply_prioritized r m f hf, if_pos ⟨hre, hme⟩]
    · subst hf
      rw [llm_apply_notes, if_pos ⟨hre, hme⟩]
  · intro hre
    rw [llm_apply_record_name, if_pos hre]

/-- Witness for C2: with draft artist "A" (kept), empty composer (filled),
non-empty record_name "Old" overwritten by "New". -/
theorem llm_apply_fill_policy_witness :
    (llm_apply (some fun f => match f with
        | .artist => "X" | .composer => "Y" | .record_name => "New" | _ => "")
      (fun f => match f with | .artist => "A" | .record_name => "Old" | _ => "")
      .artist = "A")
    ∧ (llm_apply (some fun f => match f with
        | .artist => "X" | .composer => "Y" | .record_name => "New" | _ => "")
      (fun f => match f with | .artist => "A" | .record_name => "Old" | _ => "")
      .composer = "Y")
    ∧ (llm_apply (some fun f => match f with
        | .artist => "X" | .composer => "Y" | .record_name => "New" | _ => "")
      (fun f => match f with | .artist => "A" | .record_name => "Old" | _ => "")
      .record_name = "New") := by
  refine ⟨?_, ?_, ?_⟩
  · exact (llm_apply_fill_policy _ _ .artist).1 (Or.inl (by decide)) (by decide)
  · exact (llm_apply_fill_policy _ _ .composer).2.1 (Or.inl (by decide)) (by decide) (by decide)
  · exact (llm_apply_fill_policy _ _ .record_name).2.2 (by decide)

/-- The draft metadata as seen by `_build_works` (app.py lines 331-354): the
11 top-level fields plus the optional `records` value written by the
enrichment stage.  `records = none` models a draft whose `records` key is
absent or not a list; a `none` entry inside the list models a non-dict
entry (skipped by the loop's isinstance check). -/
structure DraftR where
  get : Field → String
  records : Option (List (Option (Field → String)))

/-- `_build_works` from app.py: one cleaned work per dict entry of `records`,
else a single fallback work from the draft with per-field fallback to the
manual values. -/
def build_works (metadata : DraftR) (manual : Field → String) : List (Field → String) :=
  let works : List (Field → String) :=
    match metadata.records with
    | some rs => rs.filterMap (fun ent => ent.map (fun r => fun f => clean_text (r f)))
    | none => []
  if works.isEmpty then
    [fun f => clean_text (if metadata.get f ≠ "" then metadata.get f else manual f)]
  else works

/-- The `for index, work in enumerate(works)` loop of `insert_vinyl`
(database.py lines 212-220): each stored work row carries its emission
index as `work_index`. -/
def enumerate_from {α : Type} : Nat → List α → List (Nat × α)
  | _, [] => []
  | i, w :: ws => (i, w) :: enumerate_from (i + 1) ws

/-- The work rows inserted by `insert_vinyl` for a given works list. -/
def insert_vinyl_work_rows (works : List (Field → String)) : List (Nat × (Field → String)) :=
  enumerate_from 0 works

theorem enumerate_from_length {α : Type} (i : Nat) (l : List α) :
    (enumerate_from i l).length = l.length := by
  induction l generalizing i with
  | nil => rfl
  | cons w ws ih => simp [enumerate_from, ih]

theorem enumerate_from_getD {α : Type} (i j : Nat) (l : List α) (hj : j < l.length)
    (d : Nat × α) (d2 : α) :
    (enumerate_from i l).getD j d = (i + j, l.getD j d2) := by
  induction l generalizing i j with
  | nil => cases hj
  | cons w ws ih =>
      cases j with
      | zero => simp [enumerate_from]
      | succ k =>
          have hk : k < ws.length := Nat.lt_of_succ_lt_succ hj
          simp only [enumerate_from, List.getD_cons_succ]
          rw [ih (i + 1) k hk]
          congr 1
          omega

/-- C3: with a `records` list of n ≥ 1 mapping entries, `_build_works` emits
exactly n works, one per entry in input order, and `insert_vinyl` stores
them with `work_index` 0..n-1; with no `records` list it emits exactly one
work built from the draft fields, falling back field-by-field to the manual
value when the draft value is empty (stated for cleaned draft/manual
values, which is the format both come in). -/
theorem build_works_decomposition (metadata : DraftR) (manual : Field → String) :
    (∀ es : List (Field → String), metadata.records = some (es.map Option.some) →
      es ≠ [] →
      (build_works metadata manual).length = es.length ∧
      (∀ j, j < es.length →
        ((insert_vinyl_work_rows (build_works metadata manual)).getD j
            (0, fun _ => "")).1 = j ∧
        (∀ f, ((insert_vinyl_work_rows (build_works metadata manual)).getD j
            (0, fun _ => "")).2 f = clean_text ((es.getD j (fun _ => "")) f))))
    ∧ (metadata.records = none →
      (build_works metadata manual).length = 1 ∧
      ((insert_vinyl_work_rows (build_works metadata manual)).getD 0 (0, fun _ => "")).1 = 0 ∧
      (∀ f, pyStrip (metadata.get f) = metadata.get f → pyStrip (manual f) = manual f →
        ((insert_vinyl_work_rows (build_works metadata manual)).getD 0 (0, fun _ => "")).2 f =
          (if metadata.get f ≠ "" then metadata.get f else manual f))) := by
  constructor
  · intro es hrec hne
    have hfm : ∀ l : List (Field → String),
        l.filterMap (fun ent => (Option.some ent).map (fun r => fun f => clean_text (r f))) =
        l.map (fun r => fun f => clean_text (r f)) := by
      intro l
      induction l with
      | nil => rfl
      | cons a t ih =>
          simp only [Option.map_some'] at ih
          simp [List.filterMap_cons, Option.map_some', ih]
    have hbw : build_works metadata manual =
        es.map (fun r => fun f => clean_text (r f)) := by
      simp only [build_works, hrec, List.filterMap_map]
      rw [Function.comp_def, hfm]
      rw [if_neg]
      simp [hne]
    have hlen : (build_works metadata manual).length = es.length := by
      rw [hbw, List.length_map]
    refine ⟨hlen, ?_⟩
    intro j hj
    have hjlen : j < (build_works metadata manual).length := by rw [hlen]; exact hj
    have hrow := enumerate_from_getD 0 j (build_works metadata manual) hjlen
      (0, fun _ => "") (fun _ => "")
    have h1 : (build_works metadata manual).getD j (fun _ => "") =
        (fun fld => clean_text ((es.getD j (fun _ => "")) fld)) := by
      rw [hbw]
      rw [List.getD_eq_getElem?_getD, List.getElem?_map,
        List.getElem?_eq_getElem hj]
      simp only [Option.map_some', Option.getD_some]
      rw [List.getD_eq_getElem?_getD, List.getElem?_eq_getElem hj, Option.getD_some]
    constructor
    · rw [insert_vinyl_work_rows, hrow]
      simp
    · intro f
      rw [insert_vinyl_work_rows, hrow]
      show ((build_works metadata manual).getD j (fun _ => "")) f = _
      rw [h1]
  · intro hrec
    have hbw : build_works metadata manual =
        [fun f => clean_text (if metadata.get f ≠ "" then metadata.get f else manual f)] := by
      simp [build_works, hrec]
    refine ⟨by rw [hbw]; rfl, by rw [hbw]; rfl, ?_⟩
    intro f hmd hman
    rw [hbw]
    show clean_text (if metadata.get f ≠ "" then metadata.get f else manual f) = _
    by_cases h : metadata.get f = ""
    · simp only [h, ne_eq, not_true_eq_false, if_false, clean_text]
      exact hman
    · simp only [ne_eq, h, not_false_eq_true, if_true, clean_text]
      exact hmd

/-- Witness for C3: a 2-entry records list yields 2 works with indices 0,1;
no records list yields one work with manual fallback. -/
theorem build_works_decomposition_witness :
    ((build_works ⟨fun _ => "", some [some (fun f => match f with | .artist => "A1" | _ => ""),
        some (fun f => match f with | .artist => "A2" | _ => "")]⟩ (fun _ => "")).length = 2)
    ∧ (((insert_vinyl_work_rows (build_works ⟨fun _ => "",
        some [some (fun f => match f with | .artist => "A1" | _ => ""),
          some (fun f => match f with | .artist => "A2" | _ => "")]⟩ (fun _ => ""))).getD 1
        (0, fun _ => "")).1 = 1)
    ∧ ((build_works ⟨fun f => match f with | .artist => "D" | _ => "", none⟩
        (fun f => match f with | .composer => "M" | _ => "")).length = 1)
    ∧ (((insert_vinyl_work_rows (build_works ⟨fun f => match f with | .artist => "D" | _ => "", none⟩
        (fun f => match f with | .composer => "M" | _ => ""))).getD 0 (0, fun _ => "")).2
        .composer = "M") := by
  refine ⟨?_, ?_, ?_, ?_⟩
  · exact ((build_works_decomposition _ _).1
      [fun f => match f with | .artist => "A1" | _ => "",
       fun f => match f with | .artist => "A2" | _ => ""] rfl (by simp)).1
  · exact (((build_works_decomposition _ _).1
      [fun f => match f with | .artist => "A1" | _ => "",
       fun f => match f with | .artist => "A2" | _ => ""] rfl (by simp)).2 1 (by decide)).1
  · exact ((build_works_decomposition
      ⟨fun f => match f with | .artist => "D" | _ => "", none⟩
      (fun f => match f with | .composer => "M" | _ => "")).2 rfl).1
  · have h := (((build_works_decomposition
      ⟨fun f => match f with | .artist => "D" | _ => "", none⟩
      (fun f => match f with | .composer => "M" | _ => "")).2 rfl).2.2
      .composer (by decide) (by decide))
    rw [h]
    decide

/-- An OCR provider as consumed by the chain (src/server/ocr/providers.py):
its `available` property and the outcome of `extract` on the submitted
image.  `res = none` models a falsy payload: a transport/OS failure or an
empty result dict (`{}`); a successful extraction always returns the truthy
9-key normalized dict, modelled as `some payload`. -/
structure OCRBackend where
  avail : Bool
  res : Option Payload

/-- The provider loop of `extract_metadata` (src/server/ocr/service.py
lines 9-17): skip unavailable providers, return the first truthy payload,
fall through to `{}` (none) when every provider fails. -/
def ocr_provider_chain : List OCRBackend → Option Payload
  | [] => none
  | p :: rest =>
      if p.avail then
        match p.res with
        | some payload => some payload
        | none => ocr_provider_chain rest
      else ocr_provider_chain rest

/-- `_get_providers` (service.py lines 20-21): HTTP backend first, then the
command-line backend. -/
def get_providers (http cmd : OCRBackend) : List OCRBackend := [http, cmd]

/-- `extract_metadata` over the fixed two-provider priority list. -/
def ocr_extract_metadata (http cmd : OCRBackend) : Option Payload :=
  ocr_provider_chain (get_providers http cmd)

/-- Reading a typed field out of the chain result: the empty dict `{}`
reads as the all-empty NormalizedText. -/
def payload_field : Option Payload → Field → String
  | some p, f => p.get f
  | none, _ => ""

/-- Reading `raw_text` out of the chain result. -/
def payload_raw : Option Payload → String
  | some p => p.raw_text
  | none => ""

/-- C4: the OCR chain tries the HTTP backend then the command backend,
skipping unavailable backends and falsy payloads, returning the first
truthy payload without consulting later backends (the command backend is
universally quantified in the first conjunct); if every backend is
unavailable or fails the result reads as an all-empty NormalizedText, and
item creation still proceeds: `_build_works` emits at least one work for
every draft whatsoever. -/
theorem ocr_chain_fallback (http cmd : OCRBackend) :
    (∀ p, http.avail = true → http.res = some p →
      ocr_extract_metadata http cmd = some p)
    ∧ (∀ p, (http.avail = false ∨ http.res = none) →
      cmd.avail = true → cmd.res = some p →
      ocr_extract_metadata http cmd = some p)
    ∧ ((http.avail = false ∨ http.res = none) →
      (cmd.avail = false ∨ cmd.res = none) →
      ocr_extract_metadata http cmd = none
        ∧ (∀ f, payload_field (ocr_extract_metadata http cmd) f = "")
        ∧ payload_raw (ocr_extract_metadata http cmd) = "")
    ∧ (∀ (metadata : DraftR) (manual : Field → String),
        1 ≤ (build_works metadata manual).length) := by
  refine ⟨?_, ?_, ?_, ?_⟩
  · intro p ha hr
    simp [ocr_extract_metadata, get_providers, ocr_provider_chain, ha, hr]
  · intro p hh ha hr
    rcases hh with hh | hh
    · simp [ocr_extract_metadata, get_providers, ocr_provider_chain, hh, ha, hr]
    · simp [ocr_extract_metadata, get_providers, ocr_provider_chain, hh, ha, hr]
  · intro hh hc
    have hres : ocr_extract_metadata http cmd = none := by
      rcases hh with hh | hh <;> rcases hc with hc | hc <;>
        simp [ocr_extract_metadata, get_providers, ocr_provider_chain, hh, hc]
    refine ⟨hres, ?_, ?_⟩
    · intro f
      rw [hres]
      rfl
    · rw [hres]
      rfl
  · intro metadata manual
    rw [build_works]
    split
    · simp
    · rename_i h
      rcases List.exists_cons_of_ne_nil (by simpa [List.isEmpty_iff] using h) with ⟨a, t, hat⟩
      rw [hat]
      simp

/-- Witness for C4: an available HTTP backend with a payload short-circuits;
two failing backends yield the empty result. -/
theorem ocr_chain_fallback_witness :
    (ocr_extract_metadata ⟨true, some ⟨fun _ => "", "HTTP"⟩⟩ ⟨true, some ⟨fun _ => "", "CMD"⟩⟩ =
      some ⟨fun _ => "", "HTTP"⟩)
    ∧ (ocr_extract_metadata ⟨false, none⟩ ⟨true, none⟩ = none)
    ∧ (payload_raw (ocr_extract_metadata ⟨false, none⟩ ⟨true, none⟩) = "") := by
  refine ⟨?_, ?_, ?_⟩
  · exact (ocr_chain_fallback ⟨true, some ⟨fun _ => "", "HTTP"⟩⟩
      ⟨true, some ⟨fun _ => "", "CMD"⟩⟩).1 _ rfl rfl
  · exact ((ocr_chain_fallback ⟨false, none⟩ ⟨true, none⟩).2.2.1
      (Or.inl rfl) (Or.inr rfl)).1
  · exact ((ocr_chain_fallback ⟨false, none⟩ ⟨true, none⟩).2.2.1
      (Or.inl rfl) (Or.inr rfl)).2.2

/-- A Python value as handled by `_dict_to_plain_text` and
`_normalize_metadata` (src/server/ocr/utils.py): `None`, scalars (rendered
through `str()`, modelled as strings), lists and dicts. -/
inductive PyVal where
  | pnone : PyVal
  | pstr : String → PyVal
  | plist : List PyVal → PyVal
  | pdict : List (String × PyVal) → PyVal

mutual

/-- `_dict_to_plain_text` (utils.py lines 10-29): flatten nested JSON-like
values into key/value text. -/
def dict_to_plain_text : PyVal → Nat → String
  | .pnone, _ => ""
  | .pstr s, _ => pyStrip s
  | .plist xs, indent => pyStrip (String.intercalate "\n" (list_parts xs indent))
  | .pdict kvs, indent => pyStrip (String.intercalate "\n" (dict_lines kvs indent))

/-- The dict loop of `_dict_to_plain_text`: one line per entry (None values
included, rendered as an empty value). -/
def dict_lines : List (String × PyVal) → Nat → List String
  | [], _ => []
  | (k, item) :: t, indent =>
      let nested := dict_to_plain_text item (indent + 2)
      let pad := String.mk (List.replicate indent ' ')
      (if nested.data.contains '\n' then pad ++ k ++ ":\n" ++ nested
       else pad ++ k ++ ": " ++ nested) :: dict_lines t indent

/-- The list comprehension of `_dict_to_plain_text`: None items skipped,
empty renderings dropped at join time. -/
def list_parts : List PyVal → Nat → List String
  | [], _ => []
  | v :: t, indent =>
      match v with
      | .pnone => list_parts t indent
      | _ =>
          let part := dict_to_plain_text v (indent + 2)
          if part = "" then list_parts t indent else part :: list_parts t indent

end

/-- Python truthiness for the values above. -/
def py_truthy : PyVal → Bool
  | .pnone => false
  | .pstr s => s ≠ ""
  | .plist xs => !xs.isEmpty
  | .pdict kvs => !kvs.isEmpty

/-- The `base` dict of `_normalize_metadata` (utils.py lines 33-43), with
its exact key set: 8 typed fields plus `raw_text`. -/
def normalize_base : List (String × String) :=
  [("artist", ""), ("composer", ""), ("record_name", ""), ("catalog_number", ""),
   ("label", ""), ("year", ""), ("location", ""), ("notes", ""), ("raw_text", "")]

/-- Assignment `d[key] = val` on an association-list dict whose key set is
fixed (all keys of `base` are present). -/
def set_assoc : List (String × String) → String → String → List (String × String)
  | [], _, _ => []
  | (k, v) :: t, key, val =>
      if k = key then (k, val) :: t else (k, v) :: set_assoc t key val

/-- Key lookup `d.get(key)` on an association-list dict. -/
def get_assoc : List (String × String) → String → Option String
  | [], _ => none
  | (k, v) :: t, key => if k = key then some v else get_assoc t key

/-- `_normalize_metadata` (utils.py lines 32-59). -/
def normalize_metadata (parsed : PyVal) : List (String × String) :=
  if py_truthy parsed = false then normalize_base
  else
    match parsed with
    | .pstr s => set_assoc normalize_base "raw_text" (pyStrip s)
    | .pdict kvs => set_assoc normalize_base "raw_text" (dict_to_plain_text (.pdict kvs) 0)
    | other => set_assoc normalize_base "raw_text" (dict_to_plain_text other 0)

/-- Counterexample for C5: the normalizer output for a string input does
not contain the typed fields `composer_code`, `genre`, `key_signature` at
all — only 8 of the 11 typed fields are present. -/
theorem normalize_metadata_missing_fields_cex :
    get_assoc (normalize_metadata (.pstr "x")) "composer_code" = none
    ∧ get_assoc (normalize_metadata (.pstr "x")) "genre" = none
    ∧ get_assoc (normalize_metadata (.pstr "x")) "key_signature" = none
    ∧ get_assoc (normalize_metadata (.pstr "x")) "artist" = some "" := by
  refine ⟨?_, ?_, ?_, ?_⟩ <;>
    simp [normalize_metadata, py_truthy, normalize_base, set_assoc, get_assoc]

/-- C5 (amended): for every string input, the normalizer returns the base
record with `raw_text` equal to the trimmed input; the typed fields
`artist, composer, record_name, catalog_number, label, year, location,
notes` are present and empty, while `composer_code`, `genre` and
`key_signature` are absent from the record. -/
theorem normalize_metadata_string_shape (s : String) :
    get_assoc (normalize_metadata (.pstr s)) "artist" = some ""
    ∧ get_assoc (normalize_metadata (.pstr s)) "composer" = some ""
    ∧ get_assoc (normalize_metadata (.pstr s)) "record_name" = some ""
    ∧ get_assoc (normalize_metadata (.pstr s)) "catalog_number" = some ""
    ∧ get_assoc (normalize_metadata (.pstr s)) "label" = some ""
    ∧ get_assoc (normalize_metadata (.pstr s)) "year" = some ""
    ∧ get_assoc (normalize_metadata (.pstr s)) "location" = some ""
    ∧ get_assoc (normalize_metadata (.pstr s)) "notes" = some ""
    ∧ get_assoc (normalize_metadata (.pstr s)) "raw_text" = some (pyStrip s)
    ∧ get_assoc (normalize_metadata (.pstr s)) "composer_code" = none
    ∧ get_assoc (normalize_metadata (.pstr s)) "genre" = none
    ∧ get_assoc (normalize_metadata (.pstr s)) "key_signature" = none := by
  by_cases hs : s = ""
  · subst hs
    refine ⟨?_, ?_, ?_, ?_, ?_, ?_, ?_, ?_, ?_, ?_, ?_, ?_⟩ <;>
      simp [normalize_metadata, py_truthy, normalize_base, set_assoc, get_assoc, pyStrip,
        stripList]
  · have ht : py_truthy (.pstr s) = true := by simp [py_truthy, hs]
    have hval : normalize_metadata (.pstr s) = set_assoc normalize_base "raw_text" (pyStrip s) := by
      simp [normalize_metadata, ht]
    rw [hval]
    refine ⟨?_, ?_, ?_, ?_, ?_, ?_, ?_, ?_, ?_, ?_, ?_, ?_⟩ <;>
      simp [normalize_base, set_assoc, get_assoc]

/-- Removal of `None` items from a Python list value. -/
def remove_pnone : List PyVal → List PyVal
  | [] => []
  | .pnone :: t => remove_pnone t
  | v :: t => v :: remove_pnone t

/-- Counterexample for C9: a mapping entry whose value is `None` does
contribute a line to the flattened rendering — `{"a": None}` renders as
`"a:"`, not as the empty rendering of `{}`. -/
theorem dict_none_entry_line_cex :
    dict_to_plain_text (.pdict [("a", .pnone)]) 0 = "a:"
    ∧ dict_to_plain_text (.pdict []) 0 = "" := by
  constructor
  · simp [dict_to_plain_text, dict_lines, pyStrip, stripList, String.intercalate,
      isWsChar]
    rfl
  · rfl

/-- C9 (amended): `None` items of a sequence contribute nothing to the
rendering (removing them leaves the rendering unchanged), while a mapping
entry whose value is `None` contributes the line `key: ` (rendered with an
empty value) to the line list. -/
theorem dict_to_plain_text_none_handling :
    (∀ (xs : List PyVal) (indent : Nat),
      dict_to_plain_text (.plist (remove_pnone xs)) indent =
        dict_to_plain_text (.plist xs) indent)
    ∧ (∀ (k : String) (t : List (String × PyVal)) (indent : Nat),
      dict_lines ((k, .pnone) :: t) indent =
        (String.mk (List.replicate indent ' ') ++ k ++ ": ") :: dict_lines t indent) := by
  have hlp : ∀ (xs : List PyVal) (indent : Nat),
      list_parts (remove_pnone xs) indent = list_parts xs indent := by
    intro xs
    induction xs with
    | nil => intro indent; rfl
    | cons v t ih =>
        intro indent
        cases v with
        | pnone => simp [remove_pnone, list_parts, ih]
        | pstr s => simp [remove_pnone, list_parts, ih]
        | plist l => simp [remove_pnone, list_parts, ih]
        | pdict l => simp [remove_pnone, list_parts, ih]
  constructor
  · intro xs indent
    simp [dict_to_plain_text, hlp]
  · intro k t indent
    simp only [dict_lines, dict_to_plain_text]
    congr 1
    rw [if_neg (by decide)]
    have : (String.mk (List.replicate indent ' ') ++ k ++ ": " ++ "") =
        (String.mk (List.replicate indent ' ') ++ k ++ ": ") := by
      simp
    rw [this]

/-- `CLASSICAL_HINTS` from src/server/metadata/heuristics.py. -/
def CLASSICAL_HINTS : List String :=
  ["concerto", "konzert", "symphony", "sinfonie", "sonata", "suite",
   "prelude", "requiem", "oratorio", "kv ", "opus", "op.", "kv.", "k.", "catalogue"]

/-- `CLASSICAL_LABELS` from heuristics.py. -/
def CLASSICAL_LABELS : List String :=
  ["deutsche grammophon", "dg ", "harmonia mundi", "philips", "emi classics",
   "sony classical", "naxos", "telarc", "decca", "archiv produktion", "ecm new series"]

/-- `CLASSICAL_COMPOSERS` from heuristics.py (a set; only membership is
used, so a list embeds it). -/
def CLASSICAL_COMPOSERS : List String :=
  ["mozart", "beethoven", "bach", "brahms", "schubert", "schumann", "chopin",
   "liszt", "haydn", "tchaikovsky", "vivaldi", "handel", "debussy", "ravel",
   "mendelssohn", "strauss", "mahler", "wagner", "prokofiev", "stravinsky",
   "saint-saens", "satie", "dvorak", "berlioz", "rachmaninoff"]

/-- `infer_genre` (heuristics.py lines 40-64). -/
def infer_genre (metadata : Field → String) (ocr_payloads : List Payload) : String :=
  if metadata .genre ≠ "" then metadata .genre
  else
    let label := pyLower (metadata .label)
    if CLASSICAL_LABELS.any (fun hint => containsStr label hint) then "Classical"
    else
      let composer := pyLower (metadata .composer)
      if CLASSICAL_COMPOSERS.contains composer then "Classical"
      else
        let record_name := pyLower (metadata .record_name)
        if CLASSICAL_HINTS.any (fun hint => containsStr record_name hint) then "Classical"
        else
          let notes := String.intercalate " "
            (([pyLower (metadata .notes),
               String.intercalate " " (ocr_payloads.map (fun p => pyLower p.raw_text))]).filter
              (fun v => v ≠ ""))
          if CLASSICAL_HINTS.any (fun hint => containsStr notes hint) then "Classical"
          else ""

/-- C7: an explicit genre already set is returned unchanged (never
overwritten, whatever the label); with no explicit genre, a label whose
lowercase form contains a classical-label keyword alone makes the inferred
genre "Classical". -/
theorem infer_genre_precedence (metadata : Field → String) (ocr_payloads : List Payload) :
    (metadata .genre ≠ "" → infer_genre metadata ocr_payloads = metadata .genre)
    ∧ (metadata .genre = "" →
      CLASSICAL_LABELS.any (fun hint => containsStr (pyLower (metadata .label)) hint) = true →
      infer_genre metadata ocr_payloads = "Classical") := by
  constructor
  · intro hg
    simp [infer_genre, hg]
  · intro hg hl
    simp [infer_genre, hg, hl]

/-- Witness for C7: explicit "Jazz" survives a classical label; empty genre
with label "Deutsche Grammophon" infers "Classical". -/
theorem infer_genre_precedence_witness :
    (infer_genre (fun f => match f with
        | .genre => "Jazz" | .label => "Deutsche Grammophon" | _ => "") [] = "Jazz")
    ∧ (infer_genre (fun f => match f with
        | .label => "Deutsche Grammophon" | _ => "") [] = "Classical") := by
  constructor
  · exact (infer_genre_precedence (fun f => match f with
      | .genre => "Jazz" | .label => "Deutsche Grammophon" | _ => "") []).1 (by decide)
  · exact (infer_genre_precedence (fun f => match f with
      | .label => "Deutsche Grammophon" | _ => "") []).2 (by decide) (by decide)

/-- A stored `vinyl_works` row, reduced to the columns `find_existing_work`
reads, plus `created_at` as the recency order (modelled as a number). -/
structure WorkRow where
  artist : String
  record_name : String
  catalog_number : String
  created_at : Nat

/-- One SQL condition of the `find_existing_work` query
(src/server/database.py lines 349-365). -/
inductive WorkCond where
  | catalog (c : String)
  | artistRecord (a r : String)
  | recordOnly (r : String)
  | artistOnly (a : String)

/-- Evaluation of one condition against a stored row, mirroring the SQL:
catalog match additionally requires the stored catalog number non-empty. -/
def eval_work_cond (w : WorkRow) : WorkCond → Bool
  | .catalog c => w.catalog_number ≠ "" && pyLower w.catalog_number == pyLower c
  | .artistRecord a r =>
      pyLower w.artist == pyLower a && pyLower w.record_name == pyLower r
  | .recordOnly r => pyLower w.record_name == pyLower r
  | .artistOnly a => pyLower w.artist == pyLower a

/-- The condition-building logic of `find_existing_work` (database.py
lines 350-365). -/
def build_work_conds (artist record_name catalog_number : String) : List WorkCond :=
  (if catalog_number ≠ "" then [WorkCond.catalog catalog_number] else [])
  ++ (if artist ≠ "" ∧ record_name ≠ "" then [WorkCond.artistRecord artist record_name]
      else if record_name ≠ "" then [WorkCond.recordOnly record_name]
      else if artist ≠ "" then [WorkCond.artistOnly artist]
      else [])

/-- `ORDER BY created_at DESC LIMIT 1`: the most recently created row
(first of the maxima when tied). -/
def most_recent (rows : List WorkRow) : Option WorkRow :=
  rows.foldl (fun best w =>
    match best with
    | none => some w
    | some b => if b.created_at < w.created_at then some w else best) none

/-- `find_existing_work` (database.py lines 349-378): no conditions means
no query is issued and `None` is returned; otherwise the conditions are
OR'ed in a single query over the stored rows. -/
def find_existing_work (db : List WorkRow)
    (artist record_name catalog_number : String) : Option WorkRow :=
  let conds := build_work_conds artist record_name catalog_number
  if conds.isEmpty then none
  else most_recent (db.filter (fun w => conds.any (eval_work_cond w)))

/-- The work-level matching predicate as the spec words it (claim C8):
catalog-number equality if provided, OR the one applicable artist/record
condition. -/
def work_matches_spec (artist record_name catalog_number : String) (w : WorkRow) : Bool :=
  (catalog_number ≠ "" && w.catalog_number ≠ ""
      && pyLower w.catalog_number == pyLower catalog_number)
  || (if artist ≠ "" ∧ record_name ≠ "" then
        pyLower w.artist == pyLower artist && pyLower w.record_name == pyLower record_name
      else if record_name ≠ "" then pyLower w.record_name == pyLower record_name
      else if artist ≠ "" then pyLower w.artist == pyLower artist
      else false)

/-- The work-level resolver as the spec words it: "no match" without
querying when no identifying field is supplied, else the most recent row
matching the OR of the applicable conditions. -/
def find_work_spec (db : List WorkRow)
    (artist record_name catalog_number : String) : Option WorkRow :=
  if artist = "" ∧ record_name = "" ∧ catalog_number = "" then none
  else most_recent (db.filter (work_matches_spec artist record_name catalog_number))

/-- C8: work-level identity resolution with all-empty identifying fields
returns no match without consulting the storage at all (the result is
`none` for every database); otherwise exactly the applicable conditions
are OR'ed into the single query — `find_existing_work` coincides with the
spec-worded resolver on every input. -/
theorem find_existing_work_spec_equiv :
    (∀ (db : List WorkRow) (artist record_name catalog_number : String),
      find_existing_work db artist record_name catalog_number =
        find_work_spec db artist record_name catalog_number)
    ∧ (∀ db : List WorkRow, find_existing_work db "" "" "" = none) := by
  have hpred : ∀ (artist record_name catalog_number : String) (w : WorkRow),
      (build_work_conds artist record_name catalog_number).any (eval_work_cond w) =
        work_matches_spec artist record_name catalog_number w := by
    intro a r c w
    by_cases hc : c = "" <;> by_cases ha : a = "" <;> by_cases hr : r = "" <;>
      simp [build_work_conds, work_matches_spec, eval_work_cond, hc, ha, hr, Bool.or_comm]
  constructor
  · intro db a r c
    by_cases hempty : a = "" ∧ r = "" ∧ c = ""
    · obtain ⟨ha, hr, hc⟩ := hempty
      subst ha; subst hr; subst hc
      simp [find_existing_work, find_work_spec, build_work_conds]
    · have hconds : ¬ (build_work_conds a r c).isEmpty = true := by
        intro h
        apply hempty
        by_cases hc : c = "" <;> by_cases ha : a = "" <;> by_cases hr : r = "" <;>
          simp_all [build_work_conds]
      rw [find_existing_work, find_work_spec]
      rw [if_neg hconds, if_neg hempty]
      congr 1
      apply List.filter_congr
      intro w _
      exact hpred a r c w
  · intro db
    simp [find_existing_work, build_work_conds]

/-!
Embedding of `KEY_PATTERN` (heuristics.py lines 6-9) and `_normalize_key`
(lines 89-102).  The regex

  ([A-G](?:[#♯]|[b♭])?\s*(?:-?\s*(?:Dur|Moll|Major|Minor))
   |in\s+[A-G](?:[#♯]|[b♭])?\s+(?:major|minor))

with IGNORECASE is embedded as a direct leftmost matcher over character
lists (ASCII reading of case-insensitivity and \s).  The quantifiers need
no backtracking here: `\s*`/`\s+` are maximal-munch safe because the
tokens that follow them are never whitespace, the optional accidental is
greedy-safe because no keyword starts with an accidental character, and
the keyword alternatives are mutually non-prefixing.
-/

/-- `[A-G]` with IGNORECASE. -/
def isNoteChar (c : Char) : Bool :=
  c = 'A' || c = 'B' || c = 'C' || c = 'D' || c = 'E' || c = 'F' || c = 'G' ||
  c = 'a' || c = 'b' || c = 'c' || c = 'd' || c = 'e' || c = 'f' || c = 'g'

/-- `(?:[#♯]|[b♭])` with IGNORECASE (which adds 'B' to `[b♭]`). -/
def isAccChar (c : Char) : Bool :=
  c = '#' || c = '♯' || c = 'b' || c = 'B' || c = '♭'

/-- `(?:#|b)?` of `_normalize_key`, with IGNORECASE. -/
def isAcc2Char (c : Char) : Bool := c = '#' || c = 'b' || c = 'B'

/-- Case-insensitive match of one literal pattern character. -/
def charMatchCI (k c : Char) : Bool := c = k || c = lowerChar k || c = upperChar k

/-- Case-insensitive literal-prefix match: returns the matched input
characters and the remaining input. -/
def ciPrefix : List Char → List Char → Option (List Char × List Char)
  | [], cs => some ([], cs)
  | _ :: _, [] => none
  | k :: ks, c :: cs =>
      if charMatchCI k c then
        match ciPrefix ks cs with
        | some (m, r) => some (c :: m, r)
        | none => none
      else none

/-- First alternative of a keyword alternation that matches a prefix. -/
def firstKw : List (List Char) → List Char → Option (List Char × List Char)
  | [], _ => none
  | k :: t, cs =>
      match ciPrefix k cs with
      | some x => some x
      | none => firstKw t cs

/-- `(?:Dur|Moll|Major|Minor)`. -/
def kw1 : List (List Char) := ["Dur".data, "Moll".data, "Major".data, "Minor".data]

/-- `(?:major|minor)`. -/
def kw2 : List (List Char) := ["major".data, "minor".data]

/-- `\s*(?:-?\s*(?:Dur|Moll|Major|Minor))` after the note/accidental of the
first alternative; returns the matched characters. -/
def alt1Tail (u : List Char) : Option (List Char) :=
  match u.dropWhile isWsChar with
  | '-' :: u2 =>
      (match firstKw kw1 (u2.dropWhile isWsChar) with
       | some (m, _) => some (u.takeWhile isWsChar ++ '-' :: (u2.takeWhile isWsChar ++ m))
       | none => none)
  | u1 =>
      (match firstKw kw1 u1 with
       | some (m, _) => some (u.takeWhile isWsChar ++ m)
       | none => none)

/-- First alternative `[A-G](?:[#♯]|[b♭])?\s*(?:-?\s*(?:Dur|Moll|Major|Minor))`
anchored at the start of the input; the optional accidental is tried
greedily, falling back to the accidental-free reading. -/
def alt1 : List Char → Option (List Char)
  | [] => none
  | [c] =>
      if isNoteChar c then
        match alt1Tail [] with
        | some t => some (c :: t)
        | none => none
      else none
  | c :: a :: rest2 =>
      if isNoteChar c then
        if isAccChar a then
          match alt1Tail rest2 with
          | some t => some (c :: a :: t)
          | none =>
              match alt1Tail (a :: rest2) with
              | some t => some (c :: t)
              | none => none
        else
          match alt1Tail (a :: rest2) with
          | some t => some (c :: t)
          | none => none
      else none

/-- `\s+(?:major|minor)` after the note/accidental of the second
alternative. -/
def alt2Tail (u : List Char) : Option (List Char) :=
  if (u.takeWhile isWsChar).isEmpty then none
  else
    match firstKw kw2 (u.dropWhile isWsChar) with
    | some (m, _) => some (u.takeWhile isWsChar ++ m)
    | none => none

/-- The note/accidental/tail part of the second alternative, applied to the
input after `in\s+`. -/
def alt2Note : List Char → Option (List Char)
  | [] => none
  | [c] =>
      if isNoteChar c then
        match alt2Tail [] with
        | some t => some (c :: t)
        | none => none
      else none
  | c :: a :: r3 =>
      if isNoteChar c then
        if isAccChar a then
          match alt2Tail r3 with
          | some t => some (c :: a :: t)
          | none =>
              match alt2Tail (a :: r3) with
              | some t => some (c :: t)
              | none => none
        else
          match alt2Tail (a :: r3) with
          | some t => some (c :: t)
          | none => none
      else none

/-- Second alternative `in\s+[A-G](?:[#♯]|[b♭])?\s+(?:major|minor)` anchored
at the start of the input. -/
def alt2 : List Char → Option (List Char)
  | i :: n :: rest =>
      if (i = 'i' || i = 'I') && (n = 'n' || n = 'N') then
        if (rest.takeWhile isWsChar).isEmpty then none
        else
          match alt2Note (rest.dropWhile isWsChar) with
          | some t => some (i :: n :: (rest.takeWhile isWsChar ++ t))
          | none => none
      else none
  | _ => none

/-- `KEY_PATTERN.search`: leftmost match, first alternative preferred at
each position; returns `group(0)`. -/
def keySearch : List Char → Option (List Char)
  | [] => none
  | c :: rest =>
      match alt1 (c :: rest) with
      | some f => some f
      | none =>
          match alt2 (c :: rest) with
          | some f => some f
          | none => keySearch rest

/-- The character substitutions of `_normalize_key`:
`♯ → #`, `♭ → b`, `- → ' '`. -/
def replChar (c : Char) : Char :=
  if c = '♯' then '#' else if c = '♭' then 'b' else if c = '-' then ' ' else c

/-- `re.search(r'[A-G](?:#|b)?', clean, re.IGNORECASE)`: leftmost note
letter with an optional trailing accidental. -/
def baseNote : List Char → Option (List Char)
  | [] => none
  | c :: rest =>
      if isNoteChar c then
        some (c :: (match rest with
          | d :: _ => if isAcc2Char d then [d] else []
          | [] => []))
      else baseNote rest

def isAsciiAlpha (c : Char) : Bool := ('A' ≤ c && c ≤ 'Z') || ('a' ≤ c && c ≤ 'z')

/-- Python str.title() (ASCII reading); only reached by `_normalize_key`
when no note letter is found in the fragment. -/
def titleChars : Bool → List Char → List Char
  | _, [] => []
  | prevAlpha, c :: t =>
      if isAsciiAlpha c then
        (if prevAlpha then lowerChar c else upperChar c) :: titleChars true t
      else c :: titleChars false t

/-- `_normalize_key` (heuristics.py lines 89-102). -/
def normalize_key (fragment : String) : String :=
  let clean : List Char := (stripList fragment.data).map replChar
  let cleanLower : List Char := clean.map lowerChar
  match baseNote clean with
  | none => ⟨titleChars false clean⟩
  | some note =>
      let suffix :=
        if listContains cleanLower "moll".data || listContains cleanLower "minor".data
        then "Minor" else "Major"
      ⟨note.map upperChar⟩ ++ " " ++ suffix

/-- `extract_key` (heuristics.py lines 26-37). -/
def extract_key (metadata : Field → String) (ocr_payloads : List Payload) : String :=
  let candidates := String.intercalate " "
    (([metadata .key_signature, metadata .record_name, metadata .notes]
      ++ ocr_payloads.map (fun p => p.raw_text)).filter (fun v => v ≠ ""))
  match keySearch candidates.data with
  | none => ""
  | some frag => normalize_key ⟨frag⟩

/-- C6: with an empty draft key_signature, key extraction over text
containing "d-moll" or "in D minor" yields "D Minor", and over text
containing "C-Dur" yields "C Major" (note letter uppercased, Minor chosen
exactly when the matched fragment says moll/minor). -/
theorem extract_key_examples :
    extract_key (fun _ => "") [⟨fun _ => "", "Sinfonie d-moll Op. 70"⟩] = "D Minor"
    ∧ extract_key (fun _ => "") [⟨fun _ => "", "Konzert in D minor"⟩] = "D Minor"
    ∧ extract_key (fun _ => "") [⟨fun _ => "", "Toccata C-Dur"⟩] = "C Major" := by
  refine ⟨?_, ?_, ?_⟩ <;> decide

theorem ws_enum (c : Char) (h : isWsChar c = true) :
    c = ' ' ∨ c = '\t' ∨ c = '\n' ∨ c = '\r' ∨ c = '\x0b' ∨ c = '\x0c' := by
  simpa [isWsChar, or_assoc] using h

theorem note_enum (c : Char) (h : isNoteChar c = true) :
    c = 'A' ∨ c = 'B' ∨ c = 'C' ∨ c = 'D' ∨ c = 'E' ∨ c = 'F' ∨ c = 'G' ∨
    c = 'a' ∨ c = 'b' ∨ c = 'c' ∨ c = 'd' ∨ c = 'e' ∨ c = 'f' ∨ c = 'g' := by
  simpa [isNoteChar, or_assoc] using h

theorem acc2_enum (c : Char) (h : isAcc2Char c = true) :
    c = '#' ∨ c = 'b' ∨ c = 'B' := by
  simpa [isAcc2Char, or_assoc] using h

theorem note_nonws (c : Char) (h : isNoteChar c = true) : isWsChar c = false := by
  rcases note_enum c h with h | h | h | h | h | h | h | h | h | h | h | h | h | h <;>
    (subst h; decide)

theorem note_repl (c : Char) (h : isNoteChar c = true) : replChar c = c := by
  rcases note_enum c h with h | h | h | h | h | h | h | h | h | h | h | h | h | h <;>
    (subst h; decide)

theorem note_upper_nonws (c : Char) (h : isNoteChar c = true) :
    isWsChar (upperChar c) = false := by
  rcases note_enum c h with h | h | h | h | h | h | h | h | h | h | h | h | h | h <;>
    (subst h; decide)

theorem acc2_upper_nonws (c : Char) (h : isAcc2Char c = true) :
    isWsChar (upperChar c) = false := by
  rcases acc2_enum c h with h | h | h <;> (subst h; decide)

theorem ws_repl_not_note (c : Char) (h : isWsChar c = true) :
    isNoteChar (replChar c) = false := by
  rcases ws_enum c h with h | h | h | h | h | h <;> (subst h; decide)

theorem ciPrefix_some (k : List Char) :
    ∀ cs m r, ciPrefix k cs = some (m, r) →
      cs = m ++ r ∧ m.length = k.length ∧ ∀ c ∈ m, ∃ kc ∈ k, charMatchCI kc c = true := by
  induction k with
  | nil =>
      intro cs m r h
      simp only [ciPrefix, Option.some.injEq, Prod.mk.injEq] at h
      obtain ⟨hm, hr⟩ := h
      subst hm; subst hr
      simp
  | cons kc ks ih =>
      intro cs m r h
      cases cs with
      | nil => simp [ciPrefix] at h
      | cons c cs' =>
          simp only [ciPrefix] at h
          by_cases hcm : charMatchCI kc c = true
          · rw [if_pos hcm] at h
            cases hrec : ciPrefix ks cs' with
            | none => rw [hrec] at h; cases h
            | some pr =>
                obtain ⟨m', r'⟩ := pr
                rw [hrec] at h
                simp only [Option.some.injEq, Prod.mk.injEq] at h
                obtain ⟨hm, hr⟩ := h
                subst hr
                obtain ⟨happ, hlen, hchar⟩ := ih cs' m' r' hrec
                subst hm
                refine ⟨by simp [happ], by simp [hlen], ?_⟩
                intro x hx
                rcases List.mem_cons.mp hx with hx | hx
                · exact ⟨kc, List.mem_cons_self kc ks, hx ▸ hcm⟩
                · obtain ⟨kc', hkc', hm'⟩ := hchar x hx
                  exact ⟨kc', List.mem_cons_of_mem kc hkc', hm'⟩
          · rw [if_neg hcm] at h; cases h

theorem firstKw_some (kws : List (List Char)) :
    ∀ cs m r, firstKw kws cs = some (m, r) →
      ∃ k ∈ kws, ciPrefix k cs = some (m, r) := by
  induction kws with
  | nil => intro cs m r h; cases h
  | cons k t ih =>
      intro cs m r h
      simp only [firstKw] at h
      cases hk : ciPrefix k cs with
      | none =>
          rw [hk] at h
          obtain ⟨k', hk', h'⟩ := ih cs m r h
          exact ⟨k', List.mem_cons_of_mem k hk', h'⟩
      | some pr =>
          rw [hk] at h
          cases h
          exact ⟨k, List.mem_cons_self k t, hk⟩

theorem kwchar_nonws (kc : Char) (hkc : kc ∈ "DurMollMajorminor".data)
    (c : Char) (hm : charMatchCI kc c = true) : isWsChar c = false := by
  fin_cases hkc <;>
    (simp only [charMatchCI, Bool.or_eq_true, decide_eq_true_eq] at hm;
     rcases hm with (rfl | rfl) | rfl <;> decide)

theorem kw1_sub : ∀ k ∈ kw1, k ⊆ "DurMollMajorminor".data := by
  intro k hk
  fin_cases hk <;> decide

theorem kw2_sub : ∀ k ∈ kw2, k ⊆ "DurMollMajorminor".data := by
  intro k hk
  fin_cases hk <;> decide

theorem firstKw_chars (kws : List (List Char))
    (hsub : ∀ k ∈ kws, k ⊆ "DurMollMajorminor".data)
    (hne : ∀ k ∈ kws, k ≠ [])
    (cs m r : List Char) (h : firstKw kws cs = some (m, r)) :
    m ≠ [] ∧ ∀ c ∈ m, isWsChar c = false := by
  obtain ⟨k, hk, hci⟩ := firstKw_some kws cs m r h
  obtain ⟨_, hlen, hchar⟩ := ciPrefix_some k cs m r hci
  constructor
  · intro hm
    apply hne k hk
    have : k.length = 0 := by rw [← hlen, hm]; rfl
    exact List.eq_nil_of_length_eq_zero this
  · intro c hc
    obtain ⟨kc, hkc, hmm⟩ := hchar c hc
    exact kwchar_nonws kc (hsub k hk hkc) c hmm

theorem kw1_fragment (cs m r : List Char) (h : firstKw kw1 cs = some (m, r)) :
    m ≠ [] ∧ ∀ c ∈ m, isWsChar c = false :=
  firstKw_chars kw1 kw1_sub (by decide) cs m r h

theorem kw2_fragment (cs m r : List Char) (h : firstKw kw2 cs = some (m, r)) :
    m ≠ [] ∧ ∀ c ∈ m, isWsChar c = false :=
  firstKw_chars kw2 kw2_sub (by decide) cs m r h

theorem stripList_id (c : Char) (mid : List Char) (d : Char)
    (hc : isWsChar c = false) (hd : isWsChar d = false) :
    stripList (c :: (mid ++ [d])) = c :: (mid ++ [d]) := by
  unfold stripList
  rw [List.dropWhile_cons, hc]
  simp only [Bool.false_eq_true, if_false]
  have hrev : (c :: (mid ++ [d])).reverse = d :: (mid.reverse ++ [c]) := by
    simp
  rw [hrev, List.dropWhile_cons, hd]
  simp only [Bool.false_eq_true, if_false]
  rw [← hrev, List.reverse_reverse]

theorem prefix_map_equiv (nd : List Char) (g f : Char → Char)
    (hgf : ∀ d ∈ nd, ∀ c, (g c = d ↔ f c = d)) :
    ∀ s : List Char, nd.isPrefixOf (s.map g) = nd.isPrefixOf (s.map f) := by
  induction nd with
  | nil => intro s; cases s <;> rfl
  | cons d nd' ih =>
      intro s
      cases s with
      | nil => rfl
      | cons x s' =>
          simp only [List.map_cons, List.isPrefixOf]
          have hiff := hgf d (List.mem_cons_self d nd') x
          have hd : (d == g x) = (d == f x) := by
            by_cases hg : g x = d
            · have hf : f x = d := hiff.mp hg
              rw [hg, hf]
            · have hf : ¬ f x = d := fun hf => hg (hiff.mpr hf)
              have h1 : (d == g x) = false := beq_eq_false_iff_ne.mpr (fun h => hg h.symm)
              have h2 : (d == f x) = false := beq_eq_false_iff_ne.mpr (fun h => hf h.symm)
              rw [h1, h2]
          rw [hd, ih (fun e he c => hgf e (List.mem_cons_of_mem d he) c) s']

theorem contains_map_equiv (nd : List Char) (g f : Char → Char)
    (hgf : ∀ d ∈ nd, ∀ c, (g c = d ↔ f c = d)) :
    ∀ s : List Char, listContains (s.map g) nd = listContains (s.map f) nd := by
  intro s
  induction s with
  | nil => rfl
  | cons x s' ih =>
      simp only [List.map_cons, listContains]
      have hp : nd.isPrefixOf (g x :: s'.map g) = nd.isPrefixOf (f x :: s'.map f) := by
        have := prefix_map_equiv nd g f hgf (x :: s')
        simpa [List.map_cons] using this
      simp only [hp, ih]

theorem repl_lower_iff (d : Char) (hd : d ∈ "mollminor".data) (c : Char) :
    (lowerChar (replChar c) = d ↔ lowerChar c = d) := by
  by_cases h1 : c = '♯'
  · subst h1; fin_cases hd <;> decide
  · by_cases h2 : c = '♭'
    · subst h2; fin_cases hd <;> decide
    · by_cases h3 : c = '-'
      · subst h3; fin_cases hd <;> decide
      · have : replChar c = c := by simp [replChar, h1, h2, h3]
        rw [this]

/-- The shape invariant a matched fragment satisfies: trimming is the
identity on it, and `_normalize_key`'s base-note search succeeds on its
cleaned form with a non-empty, whitespace-free (after uppercasing) note. -/
def goodFrag (frag : List Char) : Prop :=
  stripList frag = frag ∧
  ∃ note, baseNote (frag.map replChar) = some note ∧ note ≠ [] ∧
    ∀ x ∈ note, isWsChar (upperChar x) = false

theorem baseNote_cons_note (c : Char) (l : List Char) (hc : isNoteChar c = true) :
    ∃ note, baseNote (c :: l) = some note ∧ note ≠ [] ∧
      ∀ x ∈ note, isWsChar (upperChar x) = false := by
  cases l with
  | nil =>
      refine ⟨[c], by simp [baseNote, hc], by simp, ?_⟩
      intro x hx
      simp only [List.mem_singleton] at hx
      subst hx
      exact note_upper_nonws _ hc
  | cons d rest =>
      by_cases hd : isAcc2Char d = true
      · refine ⟨[c, d], by simp [baseNote, hc, hd], by simp, ?_⟩
        intro x hx
        rcases List.mem_cons.mp hx with rfl | hx
        · exact note_upper_nonws x hc
        · simp only [List.mem_singleton] at hx
          subst hx
          exact acc2_upper_nonws x hd
      · refine ⟨[c], by simp [baseNote, hc, hd], by simp, ?_⟩
        intro x hx
        simp only [List.mem_singleton] at hx
        subst hx
        exact note_upper_nonws _ hc

theorem baseNote_append (pre l : List Char) (hpre : ∀ x ∈ pre, isNoteChar x = false) :
    baseNote (pre ++ l) = baseNote l := by
  induction pre with
  | nil => rfl
  | cons p t ih =>
      have hp := hpre p (List.mem_cons_self p t)
      rw [List.cons_append]
      rw [show baseNote (p :: (t ++ l)) = baseNote (t ++ l) from by simp [baseNote, hp]]
      exact ih (fun x hx => hpre x (List.mem_cons_of_mem p hx))

theorem goodFrag_of_note_head (c : Char) (t : List Char) (hc : isNoteChar c = true)
    (hlast : ∃ t0 d, t = t0 ++ [d] ∧ isWsChar d = false) : goodFrag (c :: t) := by
  obtain ⟨t0, d, rfl, hd⟩ := hlast
  constructor
  · exact stripList_id c t0 d (note_nonws c hc) hd
  · rw [List.map_cons, note_repl c hc]
    exact baseNote_cons_note c ((t0 ++ [d]).map replChar) hc

theorem alt1Tail_shape (u t : List Char) (h : alt1Tail u = some t) :
    ∃ t0 d, t = t0 ++ [d] ∧ isWsChar d = false := by
  unfold alt1Tail at h
  split at h
  · -- dropWhile = '-' :: u2
    rename_i u2 _
    cases hfk : firstKw kw1 (u2.dropWhile isWsChar) with
    | none => rw [hfk] at h; cases h
    | some pr =>
        obtain ⟨m, r⟩ := pr
        rw [hfk] at h
        simp only [Option.some.injEq] at h
        obtain ⟨hm, hnonws⟩ := kw1_fragment _ m r hfk
        rcases m.eq_nil_or_concat' with rfl | ⟨m0, d, rfl⟩
        · exact absurd rfl hm
        · have hd : isWsChar d = false :=
            hnonws d (List.mem_append.mpr (Or.inr (List.mem_singleton_self d)))
          refine ⟨u.takeWhile isWsChar ++ '-' :: (u2.takeWhile isWsChar ++ m0), d, ?_, hd⟩
          rw [← h]
          simp
  · -- dropWhile not starting with '-'
    cases hfk : firstKw kw1 (u.dropWhile isWsChar) with
    | none => rw [hfk] at h; cases h
    | some pr =>
        obtain ⟨m, r⟩ := pr
        rw [hfk] at h
        simp only [Option.some.injEq] at h
        obtain ⟨hm, hnonws⟩ := kw1_fragment _ m r hfk
        rcases m.eq_nil_or_concat' with rfl | ⟨m0, d, rfl⟩
        · exact absurd rfl hm
        · have hd : isWsChar d = false :=
            hnonws d (List.mem_append.mpr (Or.inr (List.mem_singleton_self d)))
          refine ⟨u.takeWhile isWsChar ++ m0, d, ?_, hd⟩
          rw [← h]
          simp

theorem alt2Tail_shape (u t : List Char) (h : alt2Tail u = some t) :
    ∃ t0 d, t = t0 ++ [d] ∧ isWsChar d = false := by
  unfold alt2Tail at h
  split at h
  · cases h
  · cases hfk : firstKw kw2 (u.dropWhile isWsChar) with
    | none => rw [hfk] at h; cases h
    | some pr =>
        obtain ⟨m, r⟩ := pr
        rw [hfk] at h
        simp only [Option.some.injEq] at h
        obtain ⟨hm, hnonws⟩ := kw2_fragment _ m r hfk
        rcases m.eq_nil_or_concat' with rfl | ⟨m0, d, rfl⟩
        · exact absurd rfl hm
        · have hd : isWsChar d = false :=
            hnonws d (List.mem_append.mpr (Or.inr (List.mem_singleton_self d)))
          refine ⟨u.takeWhile isWsChar ++ m0, d, ?_, hd⟩
          rw [← h]
          simp

theorem alt1_shape (cs frag : List Char) (h : alt1 cs = some frag) : goodFrag frag := by
  match cs with
  | [] => cases h
  | [c] =>
      simp only [alt1] at h
      by_cases hc : isNoteChar c = true
      · rw [if_pos hc] at h
        cases ht : alt1Tail [] with
        | none => rw [ht] at h; cases h
        | some t =>
            rw [ht] at h
            simp only [Option.some.injEq] at h
            subst h
            exact goodFrag_of_note_head c t hc (alt1Tail_shape [] t ht)
      · rw [if_neg hc] at h; cases h
  | c :: a :: rest2 =>
      simp only [alt1] at h
      by_cases hc : isNoteChar c = true
      · rw [if_pos hc] at h
        by_cases ha : isAccChar a = true
        · rw [if_pos ha] at h
          cases ht2 : alt1Tail rest2 with
          | some t2 =>
              rw [ht2] at h
              simp only [Option.some.injEq] at h
              subst h
              obtain ⟨t0, d, rfl, hd⟩ := alt1Tail_shape rest2 t2 ht2
              exact goodFrag_of_note_head c (a :: (t0 ++ [d])) hc ⟨a :: t0, d, by simp, hd⟩
          | none =>
              rw [ht2] at h
              cases ht : alt1Tail (a :: rest2) with
              | none => rw [ht] at h; cases h
              | some t =>
                  rw [ht] at h
                  simp only [Option.some.injEq] at h
                  subst h
                  exact goodFrag_of_note_head c t hc (alt1Tail_shape _ t ht)
        · rw [if_neg ha] at h
          cases ht : alt1Tail (a :: rest2) with
          | none => rw [ht] at h; cases h
          | some t =>
              rw [ht] at h
              simp only [Option.some.injEq] at h
              subst h
              exact goodFrag_of_note_head c t hc (alt1Tail_shape _ t ht)
      · rw [if_neg hc] at h; cases h

theorem goodFrag_alt2 (i n : Char) (ws1 : List Char) (c : Char) (t : List Char)
    (hi : i = 'i' ∨ i = 'I') (hn : n = 'n' ∨ n = 'N')
    (hws : ∀ x ∈ ws1, isWsChar x = true)
    (hc : isNoteChar c = true)
    (hlast : ∃ t0 d, t = t0 ++ [d] ∧ isWsChar d = false) :
    goodFrag (i :: n :: (ws1 ++ c :: t)) := by
  obtain ⟨t0, d, rfl, hd⟩ := hlast
  have hins : isWsChar i = false := by rcases hi with rfl | rfl <;> decide
  constructor
  · have hshape : i :: n :: (ws1 ++ c :: (t0 ++ [d])) =
        i :: ((n :: (ws1 ++ c :: t0)) ++ [d]) := by simp
    rw [hshape]
    exact stripList_id i _ d hins hd
  · have hmap : (i :: n :: (ws1 ++ c :: (t0 ++ [d]))).map replChar =
        (replChar i :: replChar n :: ws1.map replChar) ++ ((c :: (t0 ++ [d])).map replChar) := by
      simp
    rw [hmap]
    have hpre : ∀ x ∈ (replChar i :: replChar n :: ws1.map replChar),
        isNoteChar x = false := by
      intro x hx
      rcases List.mem_cons.mp hx with rfl | hx
      · rcases hi with rfl | rfl <;> decide
      · rcases List.mem_cons.mp hx with rfl | hx
        · rcases hn with rfl | rfl <;> decide
        · obtain ⟨w, hw, rfl⟩ := List.mem_map.mp hx
          exact ws_repl_not_note w (hws w hw)
    rw [baseNote_append _ _ hpre]
    rw [List.map_cons, note_repl c hc]
    exact baseNote_cons_note c _ hc

theorem alt2Note_shape (u t : List Char) (h : alt2Note u = some t) :
    ∃ c ts, t = c :: ts ∧ isNoteChar c = true ∧
      ∃ t0 d, ts = t0 ++ [d] ∧ isWsChar d = false := by
  match u with
  | [] => cases h
  | [c] =>
      simp only [alt2Note] at h
      by_cases hc : isNoteChar c = true
      · rw [if_pos hc] at h
        cases ht : alt2Tail [] with
        | none => rw [ht] at h; cases h
        | some ts =>
            rw [ht] at h
            simp only [Option.some.injEq] at h
            subst h
            exact ⟨c, ts, rfl, hc, alt2Tail_shape [] ts ht⟩
      · rw [if_neg hc] at h; cases h
  | c :: a :: r3 =>
      simp only [alt2Note] at h
      by_cases hc : isNoteChar c = true
      · rw [if_pos hc] at h
        by_cases ha : isAccChar a = true
        · rw [if_pos ha] at h
          cases ht2 : alt2Tail r3 with
          | some t2 =>
              rw [ht2] at h
              simp only [Option.some.injEq] at h
              subst h
              obtain ⟨t0, d, rfl, hd⟩ := alt2Tail_shape r3 t2 ht2
              exact ⟨c, a :: (t0 ++ [d]), rfl, hc, a :: t0, d, by simp, hd⟩
          | none =>
              rw [ht2] at h
              cases ht : alt2Tail (a :: r3) with
              | none => rw [ht] at h; cases h
              | some ts =>
                  rw [ht] at h
                  simp only [Option.some.injEq] at h
                  subst h
                  exact ⟨c, ts, rfl, hc, alt2Tail_shape _ ts ht⟩
        · rw [if_neg ha] at h
          cases ht : alt2Tail (a :: r3) with
          | none => rw [ht] at h; cases h
          | some ts =>
              rw [ht] at h
              simp only [Option.some.injEq] at h
              subst h
              exact ⟨c, ts, rfl, hc, alt2Tail_shape _ ts ht⟩
      · rw [if_neg hc] at h; cases h

theorem alt2_shape (cs frag : List Char) (h : alt2 cs = some frag) : goodFrag frag := by
  match cs with
  | [] => cases h
  | [_] => cases h
  | i :: n :: rest =>
      simp only [alt2] at h
      by_cases hin : ((i = 'i' || i = 'I') && (n = 'n' || n = 'N')) = true
      · rw [if_pos hin] at h
        simp only [Bool.and_eq_true, Bool.or_eq_true, decide_eq_true_eq] at hin
        obtain ⟨hi, hn⟩ := hin
        by_cases hws : (rest.takeWhile isWsChar).isEmpty = true
        · rw [if_pos hws] at h; cases h
        · rw [if_neg hws] at h
          cases ht : alt2Note (rest.dropWhile isWsChar) with
          | none => rw [ht] at h; cases h
          | some t =>
              rw [ht] at h
              simp only [Option.some.injEq] at h
              subst h
              obtain ⟨c, ts, rfl, hc, hlast⟩ := alt2Note_shape _ t ht
              exact goodFrag_alt2 i n _ c ts hi hn
                (fun x hx => List.mem_takeWhile_imp hx) hc hlast
      · rw [if_neg hin] at h; cases h

theorem keySearch_good (cs : List Char) :
    ∀ frag, keySearch cs = some frag → goodFrag frag := by
  induction cs with
  | nil => intro frag h; cases h
  | cons c rest ih =>
      intro frag h
      simp only [keySearch] at h
      cases h1 : alt1 (c :: rest) with
      | some f =>
          rw [h1] at h
          simp only [Option.some.injEq] at h
          subst h
          exact alt1_shape _ _ h1
      | none =>
          rw [h1] at h
          cases h2 : alt2 (c :: rest) with
          | some f =>
              rw [h2] at h
              simp only [Option.some.injEq] at h
              subst h
              exact alt2_shape _ _ h2
          | none =>
              rw [h2] at h
              exact ih frag h

theorem moll_sub : "moll".data ⊆ "mollminor".data := by decide

theorem minor_sub : "minor".data ⊆ "mollminor".data := by decide

/-- C10: for every draft and OCR payload list, heuristic key extraction
returns either the empty string or `<note> <suffix>` where the note token
is non-empty and whitespace-free and the suffix is exactly "Minor" when
the matched key fragment contains "moll" or "minor" case-insensitively
and exactly "Major" otherwise — never any other suffix. -/
theorem extract_key_shape_invariant (metadata : Field → String) (ocr_payloads : List Payload) :
    extract_key metadata ocr_payloads = ""
    ∨ ∃ (frag : List Char) (note : String),
        keySearch (String.intercalate " "
          (([metadata .key_signature, metadata .record_name, metadata .notes]
            ++ ocr_payloads.map (fun p => p.raw_text)).filter (fun v => v ≠ ""))).data
          = some frag
        ∧ note ≠ "" ∧ (∀ x ∈ note.data, isWsChar x = false)
        ∧ extract_key metadata ocr_payloads =
            note ++ " " ++
              (if (listContains (frag.map lowerChar) "moll".data
                  || listContains (frag.map lowerChar) "minor".data) = true
               then "Minor" else "Major") := by
  have hdef : extract_key metadata ocr_payloads =
      (match keySearch (String.intercalate " "
        (([metadata .key_signature, metadata .record_name, metadata .notes]
          ++ ocr_payloads.map (fun p => p.raw_text)).filter (fun v => v ≠ ""))).data with
      | none => ""
      | some frag => normalize_key ⟨frag⟩) := rfl
  cases hks : keySearch (String.intercalate " "
      (([metadata .key_signature, metadata .record_name, metadata .notes]
        ++ ocr_payloads.map (fun p => p.raw_text)).filter (fun v => v ≠ ""))).data with
  | none =>
      left
      rw [hdef, hks]
  | some frag =>
      right
      obtain ⟨hstrip, note, hbn, hnne, hnws⟩ := keySearch_good _ frag hks
      refine ⟨frag, (⟨note.map upperChar⟩ : String), ?_, ?_, ?_, ?_⟩
      · rfl
      · intro hcontra
        apply hnne
        have hdata : note.map upperChar = [] := congrArg String.data hcontra
        exact List.map_eq_nil_iff.mp hdata
      · intro x hx
        obtain ⟨y, hy, rfl⟩ := List.mem_map.mp hx
        exact hnws y hy
      · have hres : extract_key metadata ocr_payloads = normalize_key ⟨frag⟩ := by
          rw [hdef, hks]
        have hmoll : listContains ((frag.map replChar).map lowerChar) "moll".data =
            listContains (frag.map lowerChar) "moll".data := by
          rw [List.map_map]
          exact contains_map_equiv "moll".data (lowerChar ∘ replChar) lowerChar
            (fun d hd c => repl_lower_iff d (moll_sub hd) c) frag
        have hminor : listContains ((frag.map replChar).map lowerChar) "minor".data =
            listContains (frag.map lowerChar) "minor".data := by
          rw [List.map_map]
          exact contains_map_equiv "minor".data (lowerChar ∘ replChar) lowerChar
            (fun d hd c => repl_lower_iff d (minor_sub hd) c) frag
        rw [hres]
        simp only [normalize_key, hstrip, hbn, hmoll, hminor]

end Beatrove
